import Mathlib

/-!
Verification of the grit genomic-interval algebra engine against its
natural-language specification.  The engine itself (the compiled core behind
`pygrit.pygrit`) is an external dependency of the reviewed sources, which carry
only its Python-facing declarations and its test suite; every operation below
is therefore modelled from the specification text and checked against the
behaviour pinned by the tests.
-/

namespace Grit

/-- Modelled from the spec: the Interval value type of §3 — `{chrom, start, end}`
over a half-open coordinate range `[start, end)`.  The engine implementation is
absent from the reviewed sources (only binding declarations and tests exist). -/
structure Interval where
  chrom : String
  start : Nat
  «end» : Nat
deriving DecidableEq

@[simp] lemma Interval.mk_chrom (c : String) (s e : Nat) : (Interval.mk c s e).chrom = c := rfl

@[simp] lemma Interval.mk_start (c : String) (s e : Nat) : (Interval.mk c s e).start = s := rfl

@[simp] lemma Interval.mk_end (c : String) (s e : Nat) : (Interval.mk c s e).«end» = e := rfl

/-- Modelled from the spec: interval length is `end - start` (§3). -/
def Interval.length (iv : Interval) : Nat := iv.«end» - iv.start

/-- The finite set of base positions covered by an interval. -/
def Interval.pts (iv : Interval) : Finset Nat := Finset.Ico iv.start iv.«end»

/-- Modelled from the spec: two intervals overlap iff they share a chromosome and
`max(a.start, b.start) < min(a.end, b.end)`, strictly (§4.3). -/
def Interval.overlaps (a b : Interval) : Bool :=
  a.chrom == b.chrom && decide (max a.start b.start < min a.«end» b.«end»)

/-- Modelled from the spec: overlap length is `min(a.end, b.end) - max(a.start, b.start)`
when positive, else `0`, and `0` across chromosomes (§4.3). -/
def Interval.overlap_length (a b : Interval) : Nat :=
  if a.chrom = b.chrom then min a.«end» b.«end» - max a.start b.start else 0

/-- Modelled from the spec: distance between two intervals (behaviour pinned by
`TestIntervalDistance`): `none` across chromosomes, otherwise the gap between
them, which is `0` on overlap or exact adjacency. -/
def Interval.distance_to (a b : Interval) : Option Nat :=
  if a.chrom = b.chrom then some (max a.start b.start - min a.«end» b.«end») else none

lemma mem_pts {p : Nat} {iv : Interval} : p ∈ iv.pts ↔ iv.start ≤ p ∧ p < iv.«end» := by
  simp [Interval.pts]

lemma overlaps_iff (a b : Interval) :
    a.overlaps b = true ↔ a.chrom = b.chrom ∧ max a.start b.start < min a.«end» b.«end» := by
  simp [Interval.overlaps]

lemma overlaps_iff_common_point (a b : Interval) :
    a.overlaps b = true ↔ a.chrom = b.chrom ∧ ∃ p, p ∈ a.pts ∧ p ∈ b.pts := by
  simp only [overlaps_iff, mem_pts]
  constructor
  · rintro ⟨hc, h⟩
    exact ⟨hc, max a.start b.start, ⟨by omega, by omega⟩, ⟨by omega, by omega⟩⟩
  · rintro ⟨hc, p, h1, h2⟩
    exact ⟨hc, by omega⟩

lemma overlaps_symm (a b : Interval) : a.overlaps b = b.overlaps a := by
  rw [Bool.eq_iff_iff, overlaps_iff, overlaps_iff]
  constructor
  · rintro ⟨hc, h⟩
    exact ⟨hc.symm, by omega⟩
  · rintro ⟨hc, h⟩
    exact ⟨hc.symm, by omega⟩

lemma overlap_length_symm (a b : Interval) : a.overlap_length b = b.overlap_length a := by
  simp only [Interval.overlap_length]
  by_cases h : a.chrom = b.chrom
  · rw [if_pos h, if_pos h.symm, Nat.max_comm, Nat.min_comm]
  · rw [if_neg h, if_neg (Ne.symm h)]

lemma overlap_length_eq_zero_of_not_overlaps {a b : Interval}
    (h : a.overlaps b = false) : a.overlap_length b = 0 := by
  by_cases hc : a.chrom = b.chrom
  · have hov : ¬ max a.start b.start < min a.«end» b.«end» := by
      intro hlt
      have ht : a.overlaps b = true := (overlaps_iff a b).mpr ⟨hc, hlt⟩
      rw [h] at ht
      exact Bool.false_ne_true ht
    simp only [Interval.overlap_length, if_pos hc]
    omega
  · simp [Interval.overlap_length, hc]

lemma overlap_length_card (a b : Interval) (hc : a.chrom = b.chrom) :
    a.overlap_length b = (a.pts ∩ b.pts).card := by
  simp [Interval.overlap_length, Interval.pts, hc, Finset.Ico_inter_Ico, Nat.card_Ico]

/-- C1: two intervals on the same chromosome overlap iff
`max(a.start, b.start) < min(a.end, b.end)` strictly (equivalently, they share a
base position), so touching intervals such as `[100,200)` and `[200,300)` do not
overlap; the overlap length is `min(end) - max(start)` when that difference is
positive and `0` otherwise (it counts the shared bases); and intervals on
different chromosomes never overlap. -/
theorem overlap_geometry_spec :
    (∀ a b : Interval, a.chrom = b.chrom →
      (a.overlaps b = true ↔ max a.start b.start < min a.«end» b.«end»)) ∧
    (Interval.mk "chr1" 100 200).overlaps (Interval.mk "chr1" 200 300) = false ∧
    (Interval.mk "chr1" 100 300).overlaps (Interval.mk "chr1" 150 250) = true ∧
    (Interval.mk "chr1" 100 300).overlap_length (Interval.mk "chr1" 150 250) = 100 ∧
    (∀ a b : Interval, a.chrom = b.chrom →
      a.overlap_length b =
        (if max a.start b.start < min a.«end» b.«end»
          then min a.«end» b.«end» - max a.start b.start else 0) ∧
      a.overlap_length b = (a.pts ∩ b.pts).card) ∧
    (∀ a b : Interval, a.chrom ≠ b.chrom →
      a.overlaps b = false ∧ a.overlap_length b = 0) := by
  refine ⟨?_, by decide, by decide, by decide, ?_, ?_⟩
  · intro a b hc
    rw [overlaps_iff]
    simp [hc]
  · intro a b hc
    refine ⟨?_, overlap_length_card a b hc⟩
    simp only [Interval.overlap_length, hc, if_true]
    split <;> omega
  · intro a b hc
    constructor
    · rw [← Bool.not_eq_true, overlaps_iff]
      rintro ⟨h, -⟩
      exact hc h
    · simp [Interval.overlap_length, hc]

theorem overlap_geometry_spec_witness :
    ((Interval.mk "chr1" 100 200).overlaps (Interval.mk "chr1" 150 250) = true ↔
      max 100 150 < min 200 250) ∧
    (Interval.mk "chr1" 100 200).overlaps (Interval.mk "chr2" 100 200) = false ∧
    (Interval.mk "chr1" 100 200).overlap_length (Interval.mk "chr2" 100 200) = 0 :=
  ⟨overlap_geometry_spec.1 (Interval.mk "chr1" 100 200) (Interval.mk "chr1" 150 250) rfl,
    (overlap_geometry_spec.2.2.2.2.2 (Interval.mk "chr1" 100 200)
      (Interval.mk "chr2" 100 200) (by decide)).1,
    (overlap_geometry_spec.2.2.2.2.2 (Interval.mk "chr1" 100 200)
      (Interval.mk "chr2" 100 200) (by decide)).2⟩

/-- C10: `distance_to` returns `none` exactly when the two intervals lie on
different chromosomes; on the same chromosome it returns `0` on overlap or
exact adjacency and otherwise the positive gap between them, symmetrically in
its two arguments. -/
theorem distance_spec :
    (∀ a b : Interval, a.distance_to b = none ↔ a.chrom ≠ b.chrom) ∧
    (∀ a b : Interval, a.chrom = b.chrom → a.overlaps b = true →
      a.distance_to b = some 0) ∧
    (∀ a b : Interval, a.chrom = b.chrom → a.start ≤ a.«end» → b.start ≤ b.«end» →
      a.«end» = b.start → a.distance_to b = some 0) ∧
    (∀ a b : Interval, a.chrom = b.chrom → a.start ≤ a.«end» → b.start ≤ b.«end» →
      a.«end» < b.start →
      a.distance_to b = some (b.start - a.«end») ∧ 0 < b.start - a.«end») ∧
    (∀ a b : Interval, a.distance_to b = b.distance_to a) := by
  refine ⟨?_, ?_, ?_, ?_, ?_⟩
  · intro a b
    simp only [Interval.distance_to]
    split <;> simp_all
  · intro a b hc hov
    rw [overlaps_iff] at hov
    simp only [Interval.distance_to, hc, if_true, Option.some.injEq]
    omega
  · intro a b hc ha hb hadj
    simp only [Interval.distance_to, hc, if_true, Option.some.injEq]
    omega
  · intro a b hc ha hb hgap
    simp only [Interval.distance_to, hc, if_true, Option.some.injEq]
    constructor
    · omega
    · omega
  · intro a b
    simp only [Interval.distance_to]
    by_cases h : a.chrom = b.chrom
    · rw [if_pos h, if_pos h.symm, Nat.max_comm, Nat.min_comm]
    · rw [if_neg h, if_neg (Ne.symm h)]

theorem distance_spec_witness :
    (Interval.mk "chr1" 100 200).distance_to (Interval.mk "chr2" 100 200) = none ∧
    (Interval.mk "chr1" 100 200).distance_to (Interval.mk "chr1" 150 250) = some 0 ∧
    (Interval.mk "chr1" 100 200).distance_to (Interval.mk "chr1" 200 300) = some 0 ∧
    (Interval.mk "chr1" 100 200).distance_to (Interval.mk "chr1" 300 400) = some 100 :=
  ⟨(distance_spec.1 (Interval.mk "chr1" 100 200) (Interval.mk "chr2" 100 200)).mpr (by decide),
    distance_spec.2.1 (Interval.mk "chr1" 100 200) (Interval.mk "chr1" 150 250) rfl (by decide),
    distance_spec.2.2.1 (Interval.mk "chr1" 100 200) (Interval.mk "chr1" 200 300) rfl
      (by decide) (by decide) rfl,
    (distance_spec.2.2.2.1 (Interval.mk "chr1" 100 200) (Interval.mk "chr1" 300 400) rfl
      (by decide) (by decide) (by decide)).1⟩

/-- Lexicographic comparison of character lists, used to order chromosome names. -/
def lexLt : List Char → List Char → Bool
  | [], [] => false
  | [], _ :: _ => true
  | _ :: _, [] => false
  | a :: as, b :: bs => if a < b then true else if b < a then false else lexLt as bs

/-- Modelled from the spec: the default chromosome order is lexicographic by name (§4.1). -/
def chromLt (a b : String) : Bool := lexLt a.data b.data

lemma lexLt_irrefl : ∀ l : List Char, lexLt l l = false := by
  intro l
  induction l with
  | nil => rfl
  | cons a as ih => simp [lexLt, ih]

lemma lexLt_trans : ∀ {l1 l2 l3 : List Char},
    lexLt l1 l2 = true → lexLt l2 l3 = true → lexLt l1 l3 = true := by
  intro l1
  induction l1 with
  | nil =>
    intro l2 l3 h12 h23
    cases l2 with
    | nil => exact absurd h12 (by simp [lexLt])
    | cons b bs =>
      cases l3 with
      | nil => exact absurd h23 (by simp [lexLt])
      | cons c cs => simp [lexLt]
  | cons a as ih =>
    intro l2 l3 h12 h23
    cases l2 with
    | nil => exact absurd h12 (by simp [lexLt])
    | cons b bs =>
      cases l3 with
      | nil => exact absurd h23 (by simp [lexLt])
      | cons c cs =>
        simp only [lexLt] at h12 h23 ⊢
        by_cases hab : a < b
        · by_cases hbc : b < c
          · simp [lt_trans hab hbc]
          · by_cases hcb : c < b
            · simp [hbc, hcb] at h23
            · have heq : b = c := le_antisymm (not_lt.mp hcb) (not_lt.mp hbc)
              subst heq
              simp [hab]
        · by_cases hba : b < a
          · simp [hab, hba] at h12
          · have heq : a = b := le_antisymm (not_lt.mp hba) (not_lt.mp hab)
            subst heq
            simp only [lt_irrefl, if_neg (lt_irrefl a), if_false] at h12
            by_cases hac : a < c
            · simp [hac]
            · by_cases hca : c < a
              · simp [hac, hca] at h23
              · have heq2 : a = c := le_antisymm (not_lt.mp hca) (not_lt.mp hac)
                subst heq2
                simp only [lt_irrefl, if_neg (lt_irrefl a), if_false] at h23 ⊢
                exact ih h12 h23

lemma lexLt_total_eq : ∀ {l1 l2 : List Char},
    lexLt l1 l2 = false → lexLt l2 l1 = false → l1 = l2 := by
  intro l1
  induction l1 with
  | nil =>
    intro l2 h12 h21
    cases l2 with
    | nil => rfl
    | cons b bs => simp [lexLt] at h12
  | cons a as ih =>
    intro l2 h12 h21
    cases l2 with
    | nil => simp [lexLt] at h21
    | cons b bs =>
      simp only [lexLt] at h12 h21
      rcases lt_trichotomy a b with hab | hab | hab
      · simp [hab] at h12
      · subst hab
        simp only [lt_irrefl, if_false, if_neg (lt_irrefl a)] at h12 h21
        rw [ih h12 h21]
      · simp [hab] at h21

lemma chromLt_trans {a b c : String} (h1 : chromLt a b = true) (h2 : chromLt b c = true) :
    chromLt a c = true := lexLt_trans h1 h2

lemma chromLt_irrefl (a : String) : chromLt a a = false := lexLt_irrefl a.data

lemma chromLt_total_eq {a b : String} (h1 : chromLt a b = false) (h2 : chromLt b a = false) :
    a = b := by
  cases a
  cases b
  exact congrArg String.mk (lexLt_total_eq h1 h2)

lemma chromLt_ne {a b : String} (h : chromLt a b = true) : a ≠ b := by
  rintro rfl
  rw [chromLt_irrefl] at h
  exact Bool.false_ne_true h

/-- Modelled from the spec: the total sort order of §4.1 — chromosomes ordered
lexicographically by name, then `start` ascending, then `end` ascending. -/
def ivLE (a b : Interval) : Prop :=
  chromLt a.chrom b.chrom = true ∨
    (a.chrom = b.chrom ∧ (a.start < b.start ∨ (a.start = b.start ∧ a.«end» ≤ b.«end»)))

instance : DecidableRel ivLE := fun a b =>
  inferInstanceAs (Decidable (chromLt a.chrom b.chrom = true ∨
    (a.chrom = b.chrom ∧ (a.start < b.start ∨ (a.start = b.start ∧ a.«end» ≤ b.«end»)))))

instance : IsTotal Interval ivLE where
  total a b := by
    unfold ivLE
    by_cases h : chromLt a.chrom b.chrom = true
    · exact Or.inl (Or.inl h)
    by_cases h2 : chromLt b.chrom a.chrom = true
    · exact Or.inr (Or.inl h2)
    have hf : chromLt a.chrom b.chrom = false := by
      revert h
      cases chromLt a.chrom b.chrom <;> simp
    have hf2 : chromLt b.chrom a.chrom = false := by
      revert h2
      cases chromLt b.chrom a.chrom <;> simp
    have heq : a.chrom = b.chrom := chromLt_total_eq hf hf2
    rcases Nat.lt_trichotomy a.start b.start with hs | hs | hs
    · exact Or.inl (Or.inr ⟨heq, Or.inl hs⟩)
    · rcases Nat.le_total a.«end» b.«end» with he | he
      · exact Or.inl (Or.inr ⟨heq, Or.inr ⟨hs, he⟩⟩)
      · exact Or.inr (Or.inr ⟨heq.symm, Or.inr ⟨hs.symm, he⟩⟩)
    · exact Or.inr (Or.inr ⟨heq.symm, Or.inl hs⟩)

instance : IsTrans Interval ivLE where
  trans a b c hab hbc := by
    unfold ivLE at *
    rcases hab with h1 | ⟨h1, h1s⟩
    · rcases hbc with h2 | ⟨h2, -⟩
      · exact Or.inl (chromLt_trans h1 h2)
      · exact Or.inl (h2 ▸ h1)
    · rcases hbc with h2 | ⟨h2, h2s⟩
      · exact Or.inl (h1 ▸ h2)
      · exact Or.inr ⟨h1.trans h2, by omega⟩

/-- Modelled from the spec: the sort engine of §4.1, a stable sort of the
interval collection under `ivLE`. -/
def sortIntervals (l : List Interval) : List Interval := List.insertionSort ivLE l

/-- Modelled from the spec: the merge sweep of §4.3 — keep a running accumulator
`cur`; merge the next sorted interval into it when it is on the same chromosome
with `next.start ≤ cur.end + distance`, otherwise flush the accumulator and
start a new one from that interval. -/
def mergeLoop (d : Nat) (cur : Interval) : List Interval → List Interval
  | [] => [cur]
  | iv :: rest =>
    if iv.chrom = cur.chrom ∧ iv.start ≤ cur.«end» + d then
      mergeLoop d { cur with «end» := max cur.«end» iv.«end» } rest
    else
      cur :: mergeLoop d iv rest

/-- Modelled from the spec: `merge(set, distance)` — sort the input, then run
the accumulator sweep (§4.3). -/
def merge (d : Nat) (l : List Interval) : List Interval :=
  match sortIntervals l with
  | [] => []
  | iv :: rest => mergeLoop d iv rest

/-- C2: the merge sweep keeps an accumulator `[cur.start, cur.end)`, absorbing
the next sorted interval exactly when it lies on the accumulator chromosome
with `next.start ≤ cur.end + distance` and flushing otherwise; at `distance=0`
overlapping or exactly adjacent intervals coalesce, so the four-interval
example merges to two intervals, while a 50bp gap survives `distance=0` but is
bridged by `distance=100`. -/
theorem merge_sweep_spec :
    (∀ (d : Nat) (cur iv : Interval) (rest : List Interval),
      mergeLoop d cur (iv :: rest) =
        if iv.chrom = cur.chrom ∧ iv.start ≤ cur.«end» + d then
          mergeLoop d { cur with «end» := max cur.«end» iv.«end» } rest
        else cur :: mergeLoop d iv rest) ∧
    merge 0 [Interval.mk "chr1" 100 200, Interval.mk "chr1" 150 250,
        Interval.mk "chr1" 200 300, Interval.mk "chr1" 500 600] =
      [Interval.mk "chr1" 100 300, Interval.mk "chr1" 500 600] ∧
    merge 0 [Interval.mk "chr1" 100 200, Interval.mk "chr1" 250 350] =
      [Interval.mk "chr1" 100 200, Interval.mk "chr1" 250 350] ∧
    merge 100 [Interval.mk "chr1" 100 200, Interval.mk "chr1" 250 350] =
      [Interval.mk "chr1" 100 350] :=
  ⟨fun _ _ _ _ => rfl, by decide, by decide, by decide⟩

/-- Modelled from the spec: a candidate B interval qualifies for an A interval when it
strictly overlaps A and, when `fraction` is set, `overlap_len / len(A) >= fraction`;
with `reciprocal` also `overlap_len / len(B) >= fraction` (§4.3). -/
def qualifies (fraction : Option ℚ) (reciprocal : Bool) (a b : Interval) : Bool :=
  a.overlaps b &&
    match fraction with
    | none => true
    | some f =>
      decide (f ≤ (a.overlap_length b : ℚ) / (a.length : ℚ)) &&
      (!reciprocal || decide (f ≤ (a.overlap_length b : ℚ) / (b.length : ℚ)))

/-- Modelled from the spec: one A row of `intersect` — each qualifying B interval
contributes its overlap region with A (the default output mode, §4.3). -/
def intersectOne (fraction : Option ℚ) (reciprocal : Bool) (a : Interval)
    (bs : List Interval) : List Interval :=
  (bs.filter (fun b => qualifies fraction reciprocal a b)).map
    (fun b => Interval.mk a.chrom (max a.start b.start) (min a.«end» b.«end»))

/-- Modelled from the spec: `intersect(A, B, fraction, reciprocal)` in the default
overlap-region output mode (§4.3). -/
def intersect (fraction : Option ℚ) (reciprocal : Bool) (as bs : List Interval) :
    List Interval :=
  as.flatMap (fun a => intersectOne fraction reciprocal a bs)

lemma overlaps_eq_false_of_length_zero {a b : Interval} (h : a.length = 0) :
    a.overlaps b = false := by
  rw [← Bool.not_eq_true, overlaps_iff]
  rintro ⟨-, hlt⟩
  unfold Interval.length at h
  omega

/-- C3: a candidate B interval qualifies for an A interval iff it strictly overlaps A
and, when a fraction threshold is set, `overlap_len / len(A) ≥ fraction`, with the same
single threshold additionally applied to `overlap_len / len(B)` when `reciprocal` is
set (both must hold); without a fraction the predicate is bare strict overlap; and a
zero-length A interval never qualifies under a fraction-based predicate. -/
theorem intersect_qualifies_spec :
    (∀ (f : ℚ) (r : Bool) (a b : Interval), qualifies (some f) r a b = true ↔
      (a.overlaps b = true ∧ f ≤ (a.overlap_length b : ℚ) / (a.length : ℚ) ∧
        (r = true → f ≤ (a.overlap_length b : ℚ) / (b.length : ℚ)))) ∧
    (∀ a b : Interval, qualifies none false a b = a.overlaps b) ∧
    (∀ (f : ℚ) (r : Bool) (a b : Interval), a.length = 0 →
      qualifies (some f) r a b = false) := by
  refine ⟨?_, ?_, ?_⟩
  · intro f r a b
    cases r <;> simp [qualifies, and_assoc]
  · intro a b
    simp [qualifies]
  · intro f r a b h
    simp [qualifies, overlaps_eq_false_of_length_zero (b := b) h]

theorem intersect_qualifies_spec_witness :
    qualifies none false (Interval.mk "chr1" 100 200) (Interval.mk "chr1" 150 160) =
      (Interval.mk "chr1" 100 200).overlaps (Interval.mk "chr1" 150 160) ∧
    qualifies (some (1 / 2)) false (Interval.mk "chr1" 100 100)
      (Interval.mk "chr1" 90 110) = false ∧
    (qualifies (some (1 / 2)) true (Interval.mk "chr1" 100 200)
        (Interval.mk "chr1" 150 250) = true ↔
      ((Interval.mk "chr1" 100 200).overlaps (Interval.mk "chr1" 150 250) = true ∧
        (1 / 2 : ℚ) ≤ (50 : ℚ) / (100 : ℚ) ∧
        (true = true → (1 / 2 : ℚ) ≤ (50 : ℚ) / (100 : ℚ)))) :=
  ⟨intersect_qualifies_spec.2.1 (Interval.mk "chr1" 100 200) (Interval.mk "chr1" 150 160),
    intersect_qualifies_spec.2.2 (1 / 2) false (Interval.mk "chr1" 100 100)
      (Interval.mk "chr1" 90 110) rfl,
    intersect_qualifies_spec.1 (1 / 2) true (Interval.mk "chr1" 100 200)
      (Interval.mk "chr1" 150 250)⟩

/-- Splits a character stream at newline characters. -/
def splitLinesAux : List Char → List Char → List (List Char)
  | [], acc => [acc.reverse]
  | c :: rest, acc =>
    if c = '\n' then acc.reverse :: splitLinesAux rest [] else splitLinesAux rest (c :: acc)

/-- Splits one line at tab characters. -/
def splitTabsAux : List Char → List Char → List (List Char)
  | [], acc => [acc.reverse]
  | c :: rest, acc =>
    if c = '\t' then acc.reverse :: splitTabsAux rest [] else splitTabsAux rest (c :: acc)

/-- Parses a decimal coordinate field. -/
def digitsToNat? (cs : List Char) : Option Nat :=
  if cs.isEmpty then none
  else cs.foldlM (fun n c => if c.isDigit then some (n * 10 + (c.toNat - 48)) else none) 0

/-- Modelled from the spec: parse one BED record, tab-separated
`chrom`, `start`, `end` plus optional passthrough columns; a wrong column count,
a non-numeric coordinate or `start > end` is a validation error (§6). -/
def parseBedLine (cs : List Char) : Except String Interval :=
  match splitTabsAux cs [] with
  | c :: s :: e :: _ =>
    match digitsToNat? s, digitsToNat? e with
    | some sn, some en =>
      if sn ≤ en then Except.ok (Interval.mk (String.mk c) sn en)
      else Except.error "start must be <= end"
    | _, _ => Except.error "non-numeric coordinate"
  | _ => Except.error "wrong column count"

/-- Modelled from the spec: parse BED text — newline-terminated records, an empty
file is valid and yields an empty collection (§6). -/
def parseBed (text : String) : Except String (List Interval) :=
  ((splitLinesAux text.data []).filter (fun l => !l.isEmpty)).mapM parseBedLine

/-- C9: an empty input is valid for every operation and produces an empty result,
never an error: parsing an empty file yields the empty collection (while a proper
record still parses), merging an empty collection yields an empty list, and
intersecting any A against an empty B yields an empty list. -/
theorem empty_input_spec :
    parseBed "" = Except.ok [] ∧
    parseBed "chr1\t100\t200\n" = Except.ok [Interval.mk "chr1" 100 200] ∧
    (∀ d : Nat, merge d [] = []) ∧
    (∀ (fr : Option ℚ) (r : Bool) (as : List Interval), intersect fr r as [] = []) := by
  refine ⟨rfl, rfl, fun d => rfl, fun fr r as => ?_⟩
  induction as with
  | nil => rfl
  | cons a as ih => simp [intersect, intersectOne] at ih ⊢

/-- Modelled from the spec: cut one B interval out of a pending fragment, keeping
the uncovered left and right parts (§4.3, subtract). -/
def cut (f b : Interval) : List Interval :=
  if f.overlaps b then
    (if f.start < b.start then [Interval.mk f.chrom f.start b.start] else []) ++
    (if b.«end» < f.«end» then [Interval.mk f.chrom b.«end» f.«end»] else [])
  else [f]

/-- Cuts one B interval out of every pending fragment. -/
def cutAll (frags : List Interval) (b : Interval) : List Interval :=
  frags.flatMap (fun f => cut f b)

/-- Modelled from the spec: the fragments of one A interval not covered by any B
interval (§4.3, subtract with `remove_entire=false`). -/
def subtractOne (a : Interval) (bs : List Interval) : List Interval :=
  bs.foldl cutAll [a]

/-- Modelled from the spec: `subtract(A, B, remove_entire)` (§4.3). -/
def subtract (as bs : List Interval) (remove_entire : Bool) : List Interval :=
  as.flatMap (fun a =>
    if remove_entire then (if bs.any (fun b => a.overlaps b) then [] else [a])
    else subtractOne a bs)

/-- Decides whether some B interval on chromosome `c` covers base `p`. -/
def coveredBy (bs : List Interval) (c : String) (p : Nat) : Bool :=
  bs.any (fun b => b.chrom == c && decide (b.start ≤ p) && decide (p < b.«end»))

/-- Union of the base positions of a list of intervals. -/
def ptsUnion (l : List Interval) : Finset Nat :=
  l.foldr (fun iv s => iv.pts ∪ s) ∅

/-- Total number of bases in a list of intervals, counted with multiplicity. -/
def totalLen (l : List Interval) : Nat := (l.map Interval.length).sum

lemma ptsUnion_nil : ptsUnion [] = ∅ := rfl

lemma ptsUnion_cons (f : Interval) (l : List Interval) :
    ptsUnion (f :: l) = f.pts ∪ ptsUnion l := rfl

lemma mem_ptsUnion {p : Nat} {l : List Interval} :
    p ∈ ptsUnion l ↔ ∃ iv ∈ l, p ∈ iv.pts := by
  induction l with
  | nil => simp [ptsUnion_nil]
  | cons f l ih => simp [ptsUnion_cons, ih]

lemma coveredBy_iff {bs : List Interval} {c : String} {p : Nat} :
    coveredBy bs c p = true ↔ ∃ b ∈ bs, b.chrom = c ∧ b.start ≤ p ∧ p < b.«end» := by
  simp [coveredBy, and_assoc]

lemma coveredBy_cons_false {b : Interval} {bs : List Interval} {c : String} {p : Nat} :
    coveredBy (b :: bs) c p = false ↔
      ¬(b.chrom = c ∧ b.start ≤ p ∧ p < b.«end») ∧ coveredBy bs c p = false := by
  simp [coveredBy, and_assoc, not_and, imp_iff_not_or]
  tauto

lemma mem_cut_iff {f b g : Interval} :
    g ∈ cut f b ↔
      (f.overlaps b = true ∧ f.start < b.start ∧ g = Interval.mk f.chrom f.start b.start) ∨
      (f.overlaps b = true ∧ b.«end» < f.«end» ∧ g = Interval.mk f.chrom b.«end» f.«end») ∨
      (f.overlaps b = false ∧ g = f) := by
  unfold cut
  rcases hov : f.overlaps b with _ | _
  · simp [hov]
  · simp only [hov, if_true, List.mem_append]
    split_ifs with h1 h2 h2 <;> simp_all

lemma cut_chrom {f b g : Interval} (h : g ∈ cut f b) : g.chrom = f.chrom := by
  rcases mem_cut_iff.mp h with ⟨-, -, rfl⟩ | ⟨-, -, rfl⟩ | ⟨-, rfl⟩ <;> rfl

lemma cut_pos {f b g : Interval} (hf : f.start < f.«end») (hg : g ∈ cut f b) :
    g.start < g.«end» := by
  rcases mem_cut_iff.mp hg with ⟨-, h1, rfl⟩ | ⟨-, h1, rfl⟩ | ⟨-, rfl⟩
  · exact h1
  · exact h1
  · exact hf

lemma cut_subset {f b g : Interval} (hg : g ∈ cut f b) : g.pts ⊆ f.pts := by
  rcases mem_cut_iff.mp hg with ⟨hov, h1, rfl⟩ | ⟨hov, h1, rfl⟩ | ⟨-, rfl⟩
  · obtain ⟨hc, hlt⟩ := (overlaps_iff f b).mp hov
    intro p hp
    rw [mem_pts] at hp ⊢
    have hp1 : f.start ≤ p := hp.1
    have hp2 : p < b.start := hp.2
    exact ⟨hp1, by omega⟩
  · obtain ⟨hc, hlt⟩ := (overlaps_iff f b).mp hov
    intro p hp
    rw [mem_pts] at hp ⊢
    have hp1 : b.«end» ≤ p := hp.1
    have hp2 : p < f.«end» := hp.2
    exact ⟨by omega, hp2⟩
  · exact fun p hp => hp

lemma cut_pts {f b : Interval} {p : Nat} :
    (∃ g ∈ cut f b, p ∈ g.pts) ↔
      (p ∈ f.pts ∧ ¬(b.chrom = f.chrom ∧ b.start ≤ p ∧ p < b.«end»)) := by
  by_cases hov : f.overlaps b = true
  · obtain ⟨hc, hlt⟩ := (overlaps_iff f b).mp hov
    constructor
    · rintro ⟨g, hg, hp⟩
      rcases mem_cut_iff.mp hg with ⟨-, h1, rfl⟩ | ⟨-, h1, rfl⟩ | ⟨hf, -⟩
      · rw [mem_pts] at hp
        have hp1 : f.start ≤ p := hp.1
        have hp2 : p < b.start := hp.2
        refine ⟨mem_pts.mpr ⟨hp1, by omega⟩, ?_⟩
        rintro ⟨-, hbs, -⟩
        omega
      · rw [mem_pts] at hp
        have hp1 : b.«end» ≤ p := hp.1
        have hp2 : p < f.«end» := hp.2
        refine ⟨mem_pts.mpr ⟨by omega, hp2⟩, ?_⟩
        rintro ⟨-, -, hbe⟩
        omega
      · rw [hov] at hf
        exact absurd hf (by simp)
    · rintro ⟨hp, hnc⟩
      rw [mem_pts] at hp
      by_cases hb1 : b.start ≤ p
      · by_cases hb2 : p < b.«end»
        · exact absurd ⟨hc.symm, hb1, hb2⟩ hnc
        · refine ⟨Interval.mk f.chrom b.«end» f.«end»,
            mem_cut_iff.mpr (Or.inr (Or.inl ⟨hov, by omega, rfl⟩)), ?_⟩
          rw [mem_pts]
          refine ⟨show b.«end» ≤ p by omega, show p < f.«end» from hp.2⟩
      · refine ⟨Interval.mk f.chrom f.start b.start,
          mem_cut_iff.mpr (Or.inl ⟨hov, by omega, rfl⟩), ?_⟩
        rw [mem_pts]
        refine ⟨show f.start ≤ p from hp.1, show p < b.start by omega⟩
  · have hov2 : f.overlaps b = false := by
      revert hov
      cases f.overlaps b <;> simp
    constructor
    · rintro ⟨g, hg, hp⟩
      rcases mem_cut_iff.mp hg with ⟨h, -⟩ | ⟨h, -⟩ | ⟨-, hgf⟩
      · exact absurd h hov
      · exact absurd h hov
      · rw [hgf] at hp
        refine ⟨hp, ?_⟩
        rintro ⟨hbc, hbs, hbe⟩
        rw [mem_pts] at hp
        exact hov ((overlaps_iff f b).mpr ⟨hbc.symm, by omega⟩)
    · rintro ⟨hp, -⟩
      exact ⟨f, mem_cut_iff.mpr (Or.inr (Or.inr ⟨hov2, rfl⟩)), hp⟩

lemma cutAll_chrom {frags : List Interval} {b : Interval} {c : String}
    (hc : ∀ f ∈ frags, f.chrom = c) : ∀ g ∈ cutAll frags b, g.chrom = c := by
  intro g hg
  rw [cutAll, List.mem_flatMap] at hg
  obtain ⟨f, hf, hgf⟩ := hg
  rw [cut_chrom hgf]
  exact hc f hf

lemma cutAll_pts {frags : List Interval} {b : Interval} {c : String} {p : Nat}
    (hc : ∀ f ∈ frags, f.chrom = c) :
    (∃ g ∈ cutAll frags b, p ∈ g.pts) ↔
      ((∃ f ∈ frags, p ∈ f.pts) ∧ ¬(b.chrom = c ∧ b.start ≤ p ∧ p < b.«end»)) := by
  constructor
  · rintro ⟨g, hg, hp⟩
    rw [cutAll, List.mem_flatMap] at hg
    obtain ⟨f, hf, hgf⟩ := hg
    obtain ⟨hpf, hnc⟩ := (cut_pts (f := f) (b := b) (p := p)).mp ⟨g, hgf, hp⟩
    rw [hc f hf] at hnc
    exact ⟨⟨f, hf, hpf⟩, hnc⟩
  · rintro ⟨⟨f, hf, hpf⟩, hnc⟩
    rw [← hc f hf] at hnc
    obtain ⟨g, hg, hp⟩ := (cut_pts (f := f) (b := b) (p := p)).mpr ⟨hpf, hnc⟩
    refine ⟨g, ?_, hp⟩
    rw [cutAll, List.mem_flatMap]
    exact ⟨f, hf, hg⟩

lemma foldl_cutAll_chrom {bs : List Interval} {frags : List Interval} {c : String}
    (hc : ∀ f ∈ frags, f.chrom = c) : ∀ g ∈ bs.foldl cutAll frags, g.chrom = c := by
  induction bs generalizing frags with
  | nil => exact hc
  | cons b bs ih => exact ih (cutAll_chrom hc)

lemma foldl_cutAll_pts {bs : List Interval} {frags : List Interval} {c : String} {p : Nat}
    (hc : ∀ f ∈ frags, f.chrom = c) :
    (∃ g ∈ bs.foldl cutAll frags, p ∈ g.pts) ↔
      ((∃ f ∈ frags, p ∈ f.pts) ∧ coveredBy bs c p = false) := by
  induction bs generalizing frags with
  | nil => simp [coveredBy]
  | cons b bs ih =>
    rw [List.foldl_cons, ih (cutAll_chrom hc), cutAll_pts hc, coveredBy_cons_false]
    tauto

lemma subtractOne_pts {a : Interval} {bs : List Interval} {p : Nat} :
    (∃ g ∈ subtractOne a bs, p ∈ g.pts) ↔
      (p ∈ a.pts ∧ coveredBy bs a.chrom p = false) := by
  unfold subtractOne
  rw [foldl_cutAll_pts (c := a.chrom) (by intro f hf; rw [List.mem_singleton] at hf; rw [hf])]
  simp

lemma subtract_frags_pos {a : Interval} {bs : List Interval} (ha : a.start < a.«end») :
    ∀ g ∈ subtractOne a bs, g.start < g.«end» := by
  have key : ∀ (bs frags : List Interval), (∀ f ∈ frags, f.start < f.«end») →
      ∀ g ∈ bs.foldl cutAll frags, g.start < g.«end» := by
    intro bs
    induction bs with
    | nil =>
      intro frags h
      exact h
    | cons b bs ih =>
      intro frags h
      refine ih (cutAll frags b) ?_
      intro g hg
      rw [cutAll, List.mem_flatMap] at hg
      obtain ⟨f, hf, hgf⟩ := hg
      exact cut_pos (h f hf) hgf
  intro g hg
  refine key bs [a] ?_ g hg
  intro f hf
  rw [List.mem_singleton] at hf
  rw [hf]
  exact ha

lemma subtractOne_eq_nil {a : Interval} {bs : List Interval} (ha : a.start < a.«end»)
    (hcov : ∀ p ∈ a.pts, coveredBy bs a.chrom p = true) : subtractOne a bs = [] := by
  rcases h : subtractOne a bs with _ | ⟨g, gs⟩
  · rfl
  · exfalso
    have hg : g ∈ subtractOne a bs := by
      rw [h]
      exact List.mem_cons_self g gs
    have hpos : g.start < g.«end» := subtract_frags_pos ha g hg
    have hp : g.start ∈ g.pts := mem_pts.mpr ⟨le_refl _, hpos⟩
    obtain ⟨hpa, hnc⟩ := subtractOne_pts.mp ⟨g, hg, hp⟩
    rw [hcov g.start hpa] at hnc
    exact absurd hnc (by simp)

lemma subtractOne_no_overlap {a : Interval} :
    ∀ {bs : List Interval}, (∀ b ∈ bs, a.overlaps b = false) → subtractOne a bs = [a] := by
  intro bs
  induction bs with
  | nil =>
    intro h
    rfl
  | cons b rest ih =>
    intro h
    have h1 : cut a b = [a] := by
      unfold cut
      rw [if_neg]
      rw [h b (List.mem_cons_self b rest)]
      simp
    have h2 : cutAll [a] b = [a] := by
      simp [cutAll, h1]
    show List.foldl cutAll [a] (b :: rest) = [a]
    rw [List.foldl_cons, h2]
    exact ih (fun x hx => h x (List.mem_cons_of_mem b hx))

lemma pts_card (iv : Interval) : iv.pts.card = iv.length := by
  simp [Interval.pts, Interval.length, Nat.card_Ico]

lemma totalLen_cons (f : Interval) (l : List Interval) :
    totalLen (f :: l) = f.length + totalLen l := by
  simp [totalLen]

lemma ptsUnion_card {l : List Interval}
    (h : l.Pairwise (fun f g => Disjoint f.pts g.pts)) :
    (ptsUnion l).card = totalLen l := by
  induction l with
  | nil => simp [ptsUnion_nil, totalLen]
  | cons f l ih =>
    obtain ⟨hhead, htail⟩ := List.pairwise_cons.mp h
    have hd : Disjoint f.pts (ptsUnion l) := by
      rw [Finset.disjoint_left]
      intro p hp hpu
      obtain ⟨g, hg, hpg⟩ := mem_ptsUnion.mp hpu
      exact Finset.disjoint_left.mp (hhead g hg) hp hpg
    rw [ptsUnion_cons, Finset.card_union_of_disjoint hd, pts_card, ih htail, totalLen_cons]

lemma cut_pairwise {f b : Interval} :
    (cut f b).Pairwise (fun g h => Disjoint g.pts h.pts) := by
  by_cases hov : f.overlaps b = true
  · obtain ⟨hc, hlt⟩ := (overlaps_iff f b).mp hov
    unfold cut
    rw [if_pos hov]
    split_ifs with h1 h2 h2
    · rw [List.singleton_append]
      refine List.Pairwise.cons ?_ (List.pairwise_singleton _ _)
      intro g hg
      rw [List.mem_singleton] at hg
      subst hg
      rw [Finset.disjoint_left]
      intro p hp hp2
      simp only [mem_pts, Interval.mk_start, Interval.mk_end] at hp hp2
      omega
    · exact List.pairwise_singleton _ _
    · exact List.pairwise_singleton _ _
    · exact List.Pairwise.nil
  · unfold cut
    rw [if_neg hov]
    exact List.pairwise_singleton _ _

lemma cutAll_pairwise {frags : List Interval} {b : Interval}
    (h : frags.Pairwise (fun g h => Disjoint g.pts h.pts)) :
    (cutAll frags b).Pairwise (fun g h => Disjoint g.pts h.pts) := by
  unfold cutAll
  induction frags with
  | nil => simp
  | cons f l ih =>
    rw [List.flatMap_cons, List.pairwise_append]
    obtain ⟨hf, hl⟩ := List.pairwise_cons.mp h
    refine ⟨cut_pairwise, ih hl, ?_⟩
    intro g1 hg1 g2 hg2
    rw [List.mem_flatMap] at hg2
    obtain ⟨f2, hf2, hgf2⟩ := hg2
    exact Finset.disjoint_of_subset_left (cut_subset hg1)
      (Finset.disjoint_of_subset_right (cut_subset hgf2) (hf f2 hf2))

lemma foldl_cutAll_pairwise {bs : List Interval} {frags : List Interval}
    (h : frags.Pairwise (fun g h => Disjoint g.pts h.pts)) :
    (bs.foldl cutAll frags).Pairwise (fun g h => Disjoint g.pts h.pts) := by
  induction bs generalizing frags with
  | nil => exact h
  | cons b bs ih => exact ih (cutAll_pairwise h)

lemma totalLen_subtractOne (a : Interval) (bs : List Interval) :
    totalLen (subtractOne a bs) =
      (a.pts.filter (fun p => coveredBy bs a.chrom p = false)).card := by
  have hpw : (subtractOne a bs).Pairwise (fun g h => Disjoint g.pts h.pts) :=
    foldl_cutAll_pairwise (List.pairwise_singleton _ _)
  rw [← ptsUnion_card hpw]
  congr 1
  ext p
  rw [mem_ptsUnion, Finset.mem_filter]
  exact subtractOne_pts

lemma intersectOne_pts {a : Interval} {bs : List Interval} {p : Nat} :
    p ∈ ptsUnion (intersectOne none false a bs) ↔
      p ∈ a.pts ∧ coveredBy bs a.chrom p = true := by
  rw [mem_ptsUnion]
  unfold intersectOne
  constructor
  · rintro ⟨g, hg, hp⟩
    rw [List.mem_map] at hg
    obtain ⟨b, hb, rfl⟩ := hg
    rw [List.mem_filter] at hb
    obtain ⟨hbmem, hq⟩ := hb
    have hov : a.overlaps b = true := by
      simpa [qualifies] using hq
    obtain ⟨hc, hlt⟩ := (overlaps_iff a b).mp hov
    rw [mem_pts] at hp
    have hp1 : max a.start b.start ≤ p := hp.1
    have hp2 : p < min a.«end» b.«end» := hp.2
    refine ⟨mem_pts.mpr ⟨by omega, by omega⟩, coveredBy_iff.mpr ⟨b, hbmem, hc.symm,
      by omega, by omega⟩⟩
  · rintro ⟨hpa, hcov⟩
    obtain ⟨b, hb, hbc, hbs, hbe⟩ := coveredBy_iff.mp hcov
    rw [mem_pts] at hpa
    have hov : a.overlaps b = true := (overlaps_iff a b).mpr ⟨hbc.symm, by omega⟩
    refine ⟨Interval.mk a.chrom (max a.start b.start) (min a.«end» b.«end»), ?_, ?_⟩
    · rw [List.mem_map]
      refine ⟨b, ?_, rfl⟩
      rw [List.mem_filter]
      exact ⟨hb, by simp [qualifies, hov]⟩
    · rw [mem_pts]
      refine ⟨show max a.start b.start ≤ p by omega, show p < min a.«end» b.«end» by omega⟩

/-- C4: with `remove_entire=false`, `subtract` keeps for each A interval exactly the
base positions not covered by any B interval on A's chromosome (proved pointwise),
splitting the concrete example `[100,300) - [150,200)` into `[100,150)` and `[200,300)`;
an A interval entirely covered by B yields no fragments; an A interval with no
overlapping B passes through unchanged; with `remove_entire=true`, an A interval with
any overlap is dropped wholesale rather than fragmented. -/
theorem subtract_spec :
    (∀ (a : Interval) (bs : List Interval) (p : Nat),
      (∃ g ∈ subtractOne a bs, p ∈ g.pts) ↔
        p ∈ a.pts ∧ coveredBy bs a.chrom p = false) ∧
    subtract [Interval.mk "chr1" 100 300] [Interval.mk "chr1" 150 200] false =
      [Interval.mk "chr1" 100 150, Interval.mk "chr1" 200 300] ∧
    (∀ (a : Interval) (bs : List Interval), a.start < a.«end» →
      (∀ p ∈ a.pts, coveredBy bs a.chrom p = true) → subtractOne a bs = []) ∧
    (∀ (a : Interval) (bs : List Interval),
      (∀ b ∈ bs, a.overlaps b = false) → subtractOne a bs = [a]) ∧
    (∀ (a : Interval) (bs : List Interval),
      subtract [a] bs true = if bs.any (fun b => a.overlaps b) then [] else [a]) := by
  refine ⟨fun a bs p => subtractOne_pts, by decide,
    fun a bs ha h => subtractOne_eq_nil ha h,
    fun a bs h => subtractOne_no_overlap h, fun a bs => ?_⟩
  simp [subtract]

theorem subtract_spec_witness :
    subtractOne (Interval.mk "chr1" 100 200) [Interval.mk "chr1" 50 250] = [] ∧
    subtractOne (Interval.mk "chr1" 100 200) [Interval.mk "chr1" 300 400] =
      [Interval.mk "chr1" 100 200] :=
  ⟨subtract_spec.2.2.1 (Interval.mk "chr1" 100 200) [Interval.mk "chr1" 50 250]
      (by decide) (by decide),
    subtract_spec.2.2.2.1 (Interval.mk "chr1" 100 200) [Interval.mk "chr1" 300 400]
      (by decide)⟩

/-- C5: subtract/intersect partition — for every A interval and interval set B, the
bases retained by `subtract` (with `remove_entire=false`) plus the distinct bases of A
reported as overlapping by `intersect` (with no fraction threshold) equal exactly the
bases of the original A interval: no bases are created or lost. -/
theorem subtract_intersect_partition (a : Interval) (bs : List Interval) :
    totalLen (subtractOne a bs) + (ptsUnion (intersectOne none false a bs)).card
      = a.length := by
  rw [totalLen_subtractOne]
  have h2 : ptsUnion (intersectOne none false a bs)
      = a.pts.filter (fun p => coveredBy bs a.chrom p = true) := by
    ext p
    rw [Finset.mem_filter]
    exact intersectOne_pts
  have h3 : a.pts.filter (fun p => coveredBy bs a.chrom p = false)
      = a.pts.filter (fun p => ¬ coveredBy bs a.chrom p = true) := by
    apply Finset.filter_congr
    intro p hp
    cases h : coveredBy bs a.chrom p <;> simp [h]
  rw [h2, h3, ← pts_card a, add_comm]
  exact Finset.filter_card_add_filter_neg_card_eq_card _

/-- Modelled from the spec: a genome is a mapping from chromosome name to size,
here a list of `(chromosome, size)` pairs in declaration order (§3, §6). -/
def genomeSize (g : List (String × Nat)) (c : String) : Option Nat :=
  (g.find? (fun x => x.1 == c)).map (fun x => x.2)

/-- Modelled from the spec: `slop` on one interval (§4.3) — extend `start` backward by
`l` and `end` forward by `r` (fractions of the original interval length when `pct` is
set, rounded to the nearest base), then clamp `start` to `≥ 0` and `end` to
`≤ genome[chrom]`; a chromosome absent from the genome is a fatal input error. -/
def slopInterval (g : List (String × Nat)) (l r : ℚ) (pct : Bool) (iv : Interval) :
    Option Interval :=
  match genomeSize g iv.chrom with
  | none => none
  | some size =>
    let dl : ℤ := if pct then round (l * (iv.length : ℚ)) else round l
    let dr : ℤ := if pct then round (r * (iv.length : ℚ)) else round r
    some (Interval.mk iv.chrom (max 0 ((iv.start : ℤ) - dl)).toNat
      (min (size : ℤ) ((iv.«end» : ℤ) + dr)).toNat)

/-- Modelled from the spec: `slop(input, genome, ...)` over a whole collection. -/
def slop (g : List (String × Nat)) (l r : ℚ) (pct : Bool) (ivs : List Interval) :
    Option (List Interval) :=
  ivs.mapM (slopInterval g l r pct)

/-- C6: slop extends each interval's start backward by `left` and its end forward by
`right` (`both` passes the same extent on each side), then clamps `start` at `0` and
`end` at `genome[chrom]`: with whole-base extents the result is exactly
`[start - left, min(size, end + right))` with truncation at `0`; the concrete example
`slop(("chr1",10,50), genome 1000, both=20)` is `("chr1",0,70)`; and with `pct=true`
the extents are fractions of the original interval length, so `both=0.5` on the 100bp
interval `[100,200)` yields `[50,250)`. -/
theorem slop_spec :
    (∀ (g : List (String × Nat)) (iv : Interval) (size nl nr : Nat),
      genomeSize g iv.chrom = some size →
      slopInterval g (nl : ℚ) (nr : ℚ) false iv =
        some (Interval.mk iv.chrom (iv.start - nl) (min size (iv.«end» + nr)))) ∧
    slopInterval [("chr1", 1000)] 20 20 false (Interval.mk "chr1" 10 50) =
      some (Interval.mk "chr1" 0 70) ∧
    slopInterval [("chr1", 1000)] (1 / 2) (1 / 2) true (Interval.mk "chr1" 100 200) =
      some (Interval.mk "chr1" 50 250) := by
  have hr20 : round (20 : ℚ) = 20 := by
    norm_num [round_eq]
  have hrhalf : round ((1 / 2 : ℚ) * ((Interval.mk "chr1" 100 200).length : ℚ)) = 50 := by
    norm_num [Interval.length, round_eq]
  refine ⟨?_, ?_, ?_⟩
  · intro g iv size nl nr hg
    unfold slopInterval
    rw [hg]
    simp only [if_neg Bool.false_ne_true, round_natCast, Option.some.injEq,
      Interval.mk.injEq]
    refine ⟨trivial, by omega, by omega⟩
  · unfold slopInterval
    have hg : genomeSize [("chr1", 1000)] (Interval.mk "chr1" 10 50).chrom =
        some 1000 := rfl
    rw [hg]
    simp only [if_neg Bool.false_ne_true, hr20, Option.some.injEq, Interval.mk.injEq]
    refine ⟨trivial, rfl, rfl⟩
  · unfold slopInterval
    have hg : genomeSize [("chr1", 1000)] (Interval.mk "chr1" 100 200).chrom =
        some 1000 := rfl
    rw [hg]
    simp only [if_pos rfl, hrhalf, Option.some.injEq, Interval.mk.injEq]
    refine ⟨trivial, rfl, rfl⟩

theorem slop_spec_witness :
    slopInterval [("chr1", 1000)] (10 : Nat) (20 : Nat) false (Interval.mk "chr1" 100 200) =
      some (Interval.mk "chr1" 90 (min 1000 220)) :=
  slop_spec.1 [("chr1", 1000)] (Interval.mk "chr1" 100 200) 1000 10 20 rfl

/-- Modelled from the spec: the gap emitter of `complement` (§4.3) — walking the merged
intervals of one chromosome left to right from cursor `cur`, emit the gap before each
interval and finally the gap up to the chromosome size. -/
def gaps (c : String) (size : Nat) (cur : Nat) : List Interval → List Interval
  | [] => if cur < size then [Interval.mk c cur size] else []
  | iv :: rest =>
    (if cur < iv.start then [Interval.mk c cur iv.start] else []) ++ gaps c size iv.«end» rest

/-- Modelled from the spec: `complement(input, genome)` (§4.3) — per genome chromosome,
the gaps left by the merged input intervals of that chromosome within `[0, size)`. -/
def complement (g : List (String × Nat)) (l : List Interval) : List Interval :=
  g.flatMap (fun cs => gaps cs.1 cs.2 0 (merge 0 (l.filter (fun iv => iv.chrom == cs.1))))

/-- C7: `complement` merges the input per genome chromosome and emits exactly the gaps
between `0` and the first merged interval, between consecutive merged intervals, and
between the last merged interval and `genome[chrom]` (the step equations and the
concrete example); a chromosome whose merged coverage spans `[0, size)` exactly emits
nothing, and a chromosome present in the genome with zero input intervals emits the
single gap `[0, size)`. -/
theorem complement_spec :
    complement [("chr1", 500)] [Interval.mk "chr1" 100 200, Interval.mk "chr1" 300 400] =
      [Interval.mk "chr1" 0 100, Interval.mk "chr1" 200 300, Interval.mk "chr1" 400 500] ∧
    (∀ (c : String) (size cur : Nat) (iv : Interval) (rest : List Interval),
      gaps c size cur (iv :: rest) =
        (if cur < iv.start then [Interval.mk c cur iv.start] else []) ++
          gaps c size iv.«end» rest) ∧
    (∀ (c : String) (size cur : Nat),
      gaps c size cur [] = if cur < size then [Interval.mk c cur size] else []) ∧
    (∀ (c : String) (size : Nat), complement [(c, size)] [Interval.mk c 0 size] = []) ∧
    (∀ (c : String) (size : Nat), 0 < size →
      complement [(c, size)] [] = [Interval.mk c 0 size]) ∧
    (∀ (g : List (String × Nat)) (l : List Interval),
      complement g l =
        g.flatMap (fun cs =>
          gaps cs.1 cs.2 0 (merge 0 (l.filter (fun iv => iv.chrom == cs.1))))) := by
  refine ⟨by decide, fun c size cur iv rest => rfl, fun c size cur => rfl, ?_, ?_,
    fun g l => rfl⟩
  · intro c size
    show gaps c size 0 (merge 0 ([Interval.mk c 0 size].filter
      (fun iv => iv.chrom == c))) ++ [] = []
    rw [List.append_nil]
    have hfil : [Interval.mk c 0 size].filter (fun iv => iv.chrom == c) =
        [Interval.mk c 0 size] := by simp
    rw [hfil]
    have hm : merge 0 [Interval.mk c 0 size] = [Interval.mk c 0 size] := rfl
    rw [hm]
    show (if 0 < (Interval.mk c 0 size).start
        then [Interval.mk c 0 (Interval.mk c 0 size).start] else []) ++
      gaps c size (Interval.mk c 0 size).«end» [] = []
    rw [if_neg (by simp), List.nil_append]
    show (if (Interval.mk c 0 size).«end» < size
        then [Interval.mk c (Interval.mk c 0 size).«end» size] else []) = []
    rw [if_neg (by simp)]
  · intro c size h
    show gaps c size 0 (merge 0 (List.filter (fun iv => iv.chrom == c) [])) ++ [] =
      [Interval.mk c 0 size]
    rw [List.append_nil]
    show (if 0 < size then [Interval.mk c 0 size] else []) = [Interval.mk c 0 size]
    rw [if_pos h]

theorem complement_spec_witness :
    complement [("chr1", 1000)] [Interval.mk "chr1" 0 1000] = [] ∧
    complement [("chr2", 800)] [] = [Interval.mk "chr2" 0 800] :=
  ⟨complement_spec.2.2.2.1 "chr1" 1000,
    complement_spec.2.2.2.2.1 "chr2" 800 (by decide)⟩

/-- Weak order used as the sweep invariant: the accumulator never trails the
remaining input in `(chromosome, start)` position. -/
def wle (a b : Interval) : Prop :=
  chromLt a.chrom b.chrom = true ∨ (a.chrom = b.chrom ∧ a.start ≤ b.start)

lemma ivLE_wle {a b : Interval} (h : ivLE a b) : wle a b := by
  rcases h with h | ⟨h, hs⟩
  · exact Or.inl h
  · exact Or.inr ⟨h, by omega⟩

lemma wle_trans {a b c : Interval} (h1 : wle a b) (h2 : wle b c) : wle a c := by
  rcases h1 with h1 | ⟨h1, h1s⟩
  · rcases h2 with h2 | ⟨h2, -⟩
    · exact Or.inl (chromLt_trans h1 h2)
    · exact Or.inl (h2 ▸ h1)
  · rcases h2 with h2 | ⟨h2, h2s⟩
    · exact Or.inl (h1 ▸ h2)
    · exact Or.inr ⟨h1.trans h2, le_trans h1s h2s⟩

lemma mergeLoop_invariant (d : Nat) :
    ∀ (l : List Interval) (cur : Interval), l.Pairwise ivLE → (∀ x ∈ l, wle cur x) →
      (mergeLoop d cur l).Pairwise
        (fun a b => a.chrom ≠ b.chrom ∨ a.«end» + d < b.start) ∧
      (∀ o ∈ mergeLoop d cur l, wle cur o) := by
  intro l
  induction l with
  | nil =>
    intro cur hp hc
    refine ⟨List.pairwise_singleton _ _, ?_⟩
    intro o ho
    rw [mergeLoop, List.mem_singleton] at ho
    subst ho
    exact Or.inr ⟨rfl, le_refl _⟩
  | cons iv rest ih =>
    intro cur hp hc
    obtain ⟨hiv, hrest⟩ := List.pairwise_cons.mp hp
    unfold mergeLoop
    by_cases hcond : iv.chrom = cur.chrom ∧ iv.start ≤ cur.«end» + d
    · rw [if_pos hcond]
      have hc2 : ∀ x ∈ rest, wle { cur with «end» := max cur.«end» iv.«end» } x :=
        fun x hx => hc x (List.mem_cons_of_mem iv hx)
      obtain ⟨hpw, hdom⟩ := ih { cur with «end» := max cur.«end» iv.«end» } hrest hc2
      exact ⟨hpw, fun o ho => hdom o ho⟩
    · rw [if_neg hcond]
      have hcr : ∀ x ∈ rest, wle iv x := fun x hx => ivLE_wle (hiv x hx)
      obtain ⟨hpw, hdom⟩ := ih iv hrest hcr
      have hwci : wle cur iv := hc iv (List.mem_cons_self iv rest)
      have hsep : ∀ o ∈ mergeLoop d iv rest,
          cur.chrom ≠ o.chrom ∨ cur.«end» + d < o.start := by
        intro o ho
        have hwio := hdom o ho
        by_cases hic : iv.chrom = cur.chrom
        · have hgt : cur.«end» + d < iv.start := by
            by_contra hle
            exact hcond ⟨hic, by omega⟩
          rcases hwio with hlt | ⟨heq, hst⟩
          · left
            intro hco
            exact chromLt_ne hlt (hic.trans hco)
          · right
            omega
        · have hlt2 : chromLt cur.chrom iv.chrom = true := by
            rcases hwci with h | ⟨h, -⟩
            · exact h
            · exact absurd h.symm hic
          rcases hwio with hlt | ⟨heq, -⟩
          · left
            intro hco
            exact chromLt_ne (chromLt_trans hlt2 hlt) hco
          · left
            intro hco
            exact chromLt_ne hlt2 (hco.trans heq.symm)
      refine ⟨List.pairwise_cons.mpr ⟨hsep, hpw⟩, ?_⟩
      intro o ho
      rcases List.mem_cons.mp ho with rfl | ho2
      · exact Or.inr ⟨rfl, le_refl _⟩
      · exact wle_trans hwci (hdom o ho2)

lemma merge_pairwise (d : Nat) (l : List Interval) :
    (merge d l).Pairwise (fun a b => a.chrom ≠ b.chrom ∨ a.«end» + d < b.start) := by
  unfold merge
  rcases hs : sortIntervals l with _ | ⟨iv, rest⟩
  · exact List.Pairwise.nil
  · have hp : (sortIntervals l).Pairwise ivLE := List.sorted_insertionSort ivLE l
    rw [hs] at hp
    obtain ⟨hiv, hrest⟩ := List.pairwise_cons.mp hp
    exact (mergeLoop_invariant d rest iv hrest (fun x hx => ivLE_wle (hiv x hx))).1

lemma merge_no_overlap (l : List Interval) :
    (merge 0 l).Pairwise (fun a b => a.overlaps b = false ∧ b.overlaps a = false) := by
  refine (merge_pairwise 0 l).imp ?_
  intro a b h
  have h1 : a.overlaps b = false := by
    rw [← Bool.not_eq_true, overlaps_iff]
    rintro ⟨hc, hlt⟩
    rcases h with h | h
    · exact h hc
    · omega
  refine ⟨h1, ?_⟩
  rw [overlaps_symm b a]
  exact h1

lemma mergeLoop_points :
    ∀ (l : List Interval) (cur : Interval), l.Pairwise ivLE → (∀ x ∈ l, wle cur x) →
      ∀ (p : Nat) (c : String),
        (∃ o ∈ mergeLoop 0 cur l, o.chrom = c ∧ p ∈ o.pts) ↔
          ((cur.chrom = c ∧ p ∈ cur.pts) ∨ ∃ x ∈ l, x.chrom = c ∧ p ∈ x.pts) := by
  intro l
  induction l with
  | nil =>
    intro cur hp hc p c
    simp [mergeLoop]
  | cons iv rest ih =>
    intro cur hp hc p c
    obtain ⟨hiv, hrest⟩ := List.pairwise_cons.mp hp
    unfold mergeLoop
    by_cases hcond : iv.chrom = cur.chrom ∧ iv.start ≤ cur.«end» + 0
    · rw [if_pos hcond]
      have hstart : cur.start ≤ iv.start := by
        have hw := hc iv (List.mem_cons_self iv rest)
        rcases hw with h | ⟨-, h⟩
        · exact absurd hcond.1.symm (chromLt_ne h)
        · exact h
      have hc2 : ∀ x ∈ rest, wle { cur with «end» := max cur.«end» iv.«end» } x :=
        fun x hx => hc x (List.mem_cons_of_mem iv hx)
      rw [ih { cur with «end» := max cur.«end» iv.«end» } hrest hc2 p c]
      constructor
      · rintro (⟨hcc, hpp⟩ | ⟨x, hx, hxc, hpx⟩)
        · rw [mem_pts] at hpp
          simp only [Interval.mk_start, Interval.mk_end, Interval.mk_chrom] at hpp hcc
          by_cases hpe : p < cur.«end»
          · exact Or.inl ⟨hcc, mem_pts.mpr ⟨hpp.1, hpe⟩⟩
          · refine Or.inr ⟨iv, List.mem_cons_self _ _, hcond.1.trans hcc, ?_⟩
            rw [mem_pts]
            have h2 : p < max cur.«end» iv.«end» := hpp.2
            have h3 : iv.start ≤ cur.«end» := by omega
            constructor <;> omega
        · exact Or.inr ⟨x, List.mem_cons_of_mem iv hx, hxc, hpx⟩
      · rintro (⟨hcc, hpp⟩ | ⟨x, hx, hxc, hpx⟩)
        · left
          rw [mem_pts] at hpp
          refine ⟨hcc, ?_⟩
          rw [mem_pts]
          simp only [Interval.mk_start, Interval.mk_end]
          constructor
          · exact hpp.1
          · omega
        · rcases List.mem_cons.mp hx with rfl | hx2
          · left
            rw [mem_pts] at hpx
            refine ⟨hcond.1 ▸ hxc, ?_⟩
            rw [mem_pts]
            simp only [Interval.mk_start, Interval.mk_end]
            constructor
            · omega
            · omega
          · exact Or.inr ⟨x, hx2, hxc, hpx⟩
    · rw [if_neg hcond]
      have hcr : ∀ x ∈ rest, wle iv x := fun x hx => ivLE_wle (hiv x hx)
      constructor
      · rintro ⟨o, ho, hoc, hop⟩
        rcases List.mem_cons.mp ho with rfl | ho2
        · exact Or.inl ⟨hoc, hop⟩
        · rcases (ih iv hrest hcr p c).mp ⟨o, ho2, hoc, hop⟩ with ⟨h1, h2⟩ |
            ⟨x, hx, h1, h2⟩
          · exact Or.inr ⟨iv, List.mem_cons_self _ _, h1, h2⟩
          · exact Or.inr ⟨x, List.mem_cons_of_mem iv hx, h1, h2⟩
      · rintro (⟨h1, h2⟩ | ⟨x, hx, h1, h2⟩)
        · exact ⟨cur, List.mem_cons_self _ _, h1, h2⟩
        · rcases List.mem_cons.mp hx with rfl | hx2
          · obtain ⟨o, ho, h3, h4⟩ := (ih x hrest hcr p c).mpr (Or.inl ⟨h1, h2⟩)
            exact ⟨o, List.mem_cons_of_mem cur ho, h3, h4⟩
          · obtain ⟨o, ho, h3, h4⟩ := (ih iv hrest hcr p c).mpr
              (Or.inr ⟨x, hx2, h1, h2⟩)
            exact ⟨o, List.mem_cons_of_mem cur ho, h3, h4⟩

lemma merge_points (l : List Interval) (p : Nat) (c : String) :
    (∃ o ∈ merge 0 l, o.chrom = c ∧ p ∈ o.pts) ↔ ∃ x ∈ l, x.chrom = c ∧ p ∈ x.pts := by
  have hmem : ∀ x : Interval, x ∈ l ↔ x ∈ sortIntervals l :=
    fun x => (List.mem_insertionSort ivLE).symm
  unfold merge
  rcases hs : sortIntervals l with _ | ⟨iv, rest⟩
  · constructor
    · rintro ⟨o, ho, -⟩
      exact absurd ho (List.not_mem_nil o)
    · rintro ⟨x, hx, -⟩
      have hx2 := (hmem x).mp hx
      rw [hs] at hx2
      exact absurd hx2 (List.not_mem_nil x)
  · have hp : (sortIntervals l).Pairwise ivLE := List.sorted_insertionSort ivLE l
    rw [hs] at hp
    obtain ⟨hiv, hrest⟩ := List.pairwise_cons.mp hp
    show (∃ o ∈ mergeLoop 0 iv rest, o.chrom = c ∧ p ∈ o.pts) ↔
      ∃ x ∈ l, x.chrom = c ∧ p ∈ x.pts
    rw [mergeLoop_points rest iv hrest (fun x hx => ivLE_wle (hiv x hx)) p c]
    constructor
    · rintro (⟨h1, h2⟩ | ⟨x, hx, h1, h2⟩)
      · refine ⟨iv, ?_, h1, h2⟩
        rw [hmem iv, hs]
        exact List.mem_cons_self _ _
      · refine ⟨x, ?_, h1, h2⟩
        rw [hmem x, hs]
        exact List.mem_cons_of_mem iv hx
    · rintro ⟨x, hx, h1, h2⟩
      have hx2 := (hmem x).mp hx
      rw [hs] at hx2
      rcases List.mem_cons.mp hx2 with rfl | hx3
      · exact Or.inl ⟨h1, h2⟩
      · exact Or.inr ⟨x, hx3, h1, h2⟩

lemma merge_overlaps_of_overlaps {xs ys : List Interval} {a b : Interval}
    (ha : a ∈ merge 0 xs) (hb : b ∈ merge 0 ys) (hov : a.overlaps b = true) :
    ∃ x ∈ xs, ∃ y ∈ ys, x.overlaps y = true := by
  obtain ⟨hc, p, hpa, hpb⟩ := (overlaps_iff_common_point a b).mp hov
  obtain ⟨x, hx, hxc, hxp⟩ := (merge_points xs p a.chrom).mp ⟨a, ha, rfl, hpa⟩
  obtain ⟨y, hy, hyc, hyp⟩ := (merge_points ys p a.chrom).mp ⟨b, hb, hc.symm, hpb⟩
  exact ⟨x, hx, y, hy,
    (overlaps_iff_common_point x y).mpr ⟨hxc.trans hyc.symm, p, hxp, hyp⟩⟩

/-- Total overlap length of one interval against a list of intervals. -/
def rowOverlap (a : Interval) (ys : List Interval) : Nat :=
  (ys.map (fun b => a.overlap_length b)).sum

/-- Modelled from the spec: the jaccard intersection — the summed overlap lengths over
all pairs of merged-A and merged-B intervals (§4.3). -/
def interLen (xs ys : List Interval) : Nat :=
  (xs.map (fun a => rowOverlap a ys)).sum

/-- Modelled from the spec: `jaccard(A, B)` (§4.3) — merge each input independently,
compute `intersection / union` with `union = len(A) + len(B) - intersection`, defined
as `0` when the union is `0`. -/
def jaccard (xs ys : List Interval) : ℚ :=
  if (totalLen (merge 0 xs) : ℚ) + (totalLen (merge 0 ys) : ℚ)
      - (interLen (merge 0 xs) (merge 0 ys) : ℚ) = 0 then 0
  else (interLen (merge 0 xs) (merge 0 ys) : ℚ) /
    ((totalLen (merge 0 xs) : ℚ) + (totalLen (merge 0 ys) : ℚ)
      - (interLen (merge 0 xs) (merge 0 ys) : ℚ))

lemma overlap_length_self (a : Interval) : a.overlap_length a = a.length := by
  simp [Interval.overlap_length, Interval.length]

lemma rowOverlap_eq_zero {a : Interval} :
    ∀ {ys : List Interval}, (∀ y ∈ ys, a.overlaps y = false) → rowOverlap a ys = 0 := by
  intro ys
  induction ys with
  | nil =>
    intro h
    rfl
  | cons y ys ih =>
    intro h
    simp only [rowOverlap, List.map_cons, List.sum_cons]
    rw [overlap_length_eq_zero_of_not_overlaps (h y (List.mem_cons_self y ys))]
    have h2 := ih (fun z hz => h z (List.mem_cons_of_mem y hz))
    simp only [rowOverlap] at h2
    omega

lemma interLen_self :
    ∀ {l : List Interval},
      l.Pairwise (fun a b => a.overlaps b = false ∧ b.overlaps a = false) →
      interLen l l = totalLen l := by
  intro l
  induction l with
  | nil =>
    intro h
    rfl
  | cons a l ih =>
    intro h
    obtain ⟨ha, hl⟩ := List.pairwise_cons.mp h
    have h1 : rowOverlap a (a :: l) = a.length := by
      simp only [rowOverlap, List.map_cons, List.sum_cons]
      rw [overlap_length_self]
      have h2 : rowOverlap a l = 0 := rowOverlap_eq_zero (fun y hy => (ha y hy).1)
      simp only [rowOverlap] at h2
      omega
    have h3 : (l.map (fun x => rowOverlap x (a :: l))).sum =
        (l.map (fun x => rowOverlap x l)).sum := by
      have hcong : ∀ x ∈ l, rowOverlap x (a :: l) = rowOverlap x l := by
        intro x hx
        simp only [rowOverlap, List.map_cons, List.sum_cons]
        rw [overlap_length_eq_zero_of_not_overlaps (ha x hx).2]
        omega
      rw [List.map_congr_left hcong]
    simp only [interLen, List.map_cons, List.sum_cons]
    rw [h1, h3]
    have h4 : (l.map (fun x => rowOverlap x l)).sum = totalLen l := by
      have h5 := ih hl
      simp only [interLen] at h5
      exact h5
    rw [h4, totalLen_cons]

lemma interLen_eq_zero {ys : List Interval} :
    ∀ {xs : List Interval}, (∀ x ∈ xs, ∀ y ∈ ys, x.overlaps y = false) →
      interLen xs ys = 0 := by
  intro xs
  induction xs with
  | nil =>
    intro h
    rfl
  | cons a l ih =>
    intro h
    simp only [interLen, List.map_cons, List.sum_cons]
    rw [rowOverlap_eq_zero (h a (List.mem_cons_self a l))]
    have h2 := ih (fun x hx => h x (List.mem_cons_of_mem a hx))
    simp only [interLen] at h2
    omega

lemma jaccard_self {xs : List Interval} (h : 0 < totalLen (merge 0 xs)) :
    jaccard xs xs = 1 := by
  have hI : interLen (merge 0 xs) (merge 0 xs) = totalLen (merge 0 xs) :=
    interLen_self (merge_no_overlap xs)
  have hL : ((totalLen (merge 0 xs) : ℚ)) ≠ 0 := by
    have hpos : (0 : ℚ) < (totalLen (merge 0 xs) : ℚ) := by exact_mod_cast h
    exact ne_of_gt hpos
  unfold jaccard
  rw [hI]
  have hsimp : (totalLen (merge 0 xs) : ℚ) + (totalLen (merge 0 xs) : ℚ)
      - (totalLen (merge 0 xs) : ℚ) = (totalLen (merge 0 xs) : ℚ) := by ring
  rw [hsimp, if_neg hL]
  exact div_self hL

lemma jaccard_zero {xs ys : List Interval}
    (h : ∀ x ∈ xs, ∀ y ∈ ys, x.overlaps y = false) : jaccard xs ys = 0 := by
  have hI : interLen (merge 0 xs) (merge 0 ys) = 0 := by
    apply interLen_eq_zero
    intro a ha b hb
    by_contra hov
    have hov2 : a.overlaps b = true := by
      revert hov
      cases a.overlaps b <;> simp
    obtain ⟨x, hx, y, hy, hxy⟩ := merge_overlaps_of_overlaps ha hb hov2
    rw [h x hx y hy] at hxy
    exact Bool.false_ne_true hxy
  unfold jaccard
  rw [hI]
  split_ifs <;> simp

/-- C8 counterexample: the claim says `jaccard(X, X) = 1.0` for every non-empty X, but
for the non-empty set holding only the zero-length interval `("chr1",100,100)` the
merged union is `0`, so jaccard is `0`, not `1`. -/
theorem jaccard_identity_counterexample :
    ([Interval.mk "chr1" 100 100] ≠ ([] : List Interval)) ∧
    jaccard [Interval.mk "chr1" 100 100] [Interval.mk "chr1" 100 100] ≠ 1 := by
  refine ⟨by simp, ?_⟩
  have h0 : jaccard [Interval.mk "chr1" 100 100] [Interval.mk "chr1" 100 100] = 0 := by
    unfold jaccard
    rw [show interLen (merge 0 [Interval.mk "chr1" 100 100])
        (merge 0 [Interval.mk "chr1" 100 100]) = 0 from rfl,
      show totalLen (merge 0 [Interval.mk "chr1" 100 100]) = 0 from rfl]
    norm_num
  rw [h0]
  norm_num

/-- C8 (amended): `jaccard(X, X) = 1` for every X containing at least one
positive-length interval (for an X of only zero-length intervals the union is `0` and
jaccard is defined as `0`, which refutes the unrestricted identity); `jaccard(X, Y) = 0`
whenever X and Y share no chromosome or never overlap; and in general jaccard is
intersection over union computed on the independently merged inputs, defined as `0`
when the union is `0`. -/
theorem jaccard_spec :
    (∀ xs : List Interval, (∃ x ∈ xs, 0 < x.length) → jaccard xs xs = 1) ∧
    (∀ xs ys : List Interval, (∀ x ∈ xs, ∀ y ∈ ys, x.chrom ≠ y.chrom) →
      jaccard xs ys = 0) ∧
    (∀ xs ys : List Interval, (∀ x ∈ xs, ∀ y ∈ ys, x.overlaps y = false) →
      jaccard xs ys = 0) ∧
    (∀ xs ys : List Interval,
      (totalLen (merge 0 xs) : ℚ) + (totalLen (merge 0 ys) : ℚ)
          - (interLen (merge 0 xs) (merge 0 ys) : ℚ) = 0 → jaccard xs ys = 0) ∧
    (∀ xs ys : List Interval,
      (totalLen (merge 0 xs) : ℚ) + (totalLen (merge 0 ys) : ℚ)
          - (interLen (merge 0 xs) (merge 0 ys) : ℚ) ≠ 0 →
      jaccard xs ys = (interLen (merge 0 xs) (merge 0 ys) : ℚ) /
        ((totalLen (merge 0 xs) : ℚ) + (totalLen (merge 0 ys) : ℚ)
          - (interLen (merge 0 xs) (merge 0 ys) : ℚ))) := by
  refine ⟨?_, ?_, ?_, ?_, ?_⟩
  · rintro xs ⟨x, hx, hlen⟩
    apply jaccard_self
    have hp : x.start ∈ x.pts := by
      rw [mem_pts]
      unfold Interval.length at hlen
      omega
    obtain ⟨o, ho, hoc, hop⟩ := (merge_points xs x.start x.chrom).mpr ⟨x, hx, rfl, hp⟩
    have holen : 0 < o.length := by
      rw [mem_pts] at hop
      unfold Interval.length
      omega
    have hmem : o.length ∈ (merge 0 xs).map Interval.length :=
      List.mem_map_of_mem Interval.length ho
    have hle := List.single_le_sum (fun (i : Nat) _ => Nat.zero_le i) _ hmem
    unfold totalLen
    omega
  · intro xs ys h
    apply jaccard_zero
    intro x hx y hy
    have hne : ¬ x.overlaps y = true := by
      rw [overlaps_iff]
      rintro ⟨hc, -⟩
      exact h x hx y hy hc
    revert hne
    cases x.overlaps y <;> simp
  · intro xs ys h
    exact jaccard_zero h
  · intro xs ys h
    unfold jaccard
    rw [if_pos h]
  · intro xs ys h
    unfold jaccard
    rw [if_neg h]

theorem jaccard_spec_witness :
    jaccard [Interval.mk "chr1" 100 200, Interval.mk "chr1" 300 400]
      [Interval.mk "chr1" 100 200, Interval.mk "chr1" 300 400] = 1 ∧
    jaccard [Interval.mk "chr1" 100 200] [Interval.mk "chr2" 100 200] = 0 ∧
    jaccard [Interval.mk "chr1" 100 200] [Interval.mk "chr1" 300 400] = 0 ∧
    jaccard ([] : List Interval) ([] : List Interval) = 0 ∧
    jaccard [Interval.mk "chr1" 0 1] [Interval.mk "chr1" 0 1] =
      (interLen (merge 0 [Interval.mk "chr1" 0 1]) (merge 0 [Interval.mk "chr1" 0 1]) : ℚ) /
        ((totalLen (merge 0 [Interval.mk "chr1" 0 1]) : ℚ)
          + (totalLen (merge 0 [Interval.mk "chr1" 0 1]) : ℚ)
          - (interLen (merge 0 [Interval.mk "chr1" 0 1])
              (merge 0 [Interval.mk "chr1" 0 1]) : ℚ)) :=
  ⟨jaccard_spec.1 _ ⟨Interval.mk "chr1" 100 200, List.mem_cons_self _ _, by decide⟩,
    jaccard_spec.2.1 _ _ (by decide),
    jaccard_spec.2.2.1 _ _ (by decide),
    jaccard_spec.2.2.2.1 _ _ (by
      rw [show interLen (merge 0 ([] : List Interval)) (merge 0 ([] : List Interval))
          = 0 from rfl,
        show totalLen (merge 0 ([] : List Interval)) = 0 from rfl]
      norm_num),
    jaccard_spec.2.2.2.2 _ _ (by
      rw [show interLen (merge 0 [Interval.mk "chr1" 0 1])
          (merge 0 [Interval.mk "chr1" 0 1]) = 1 from rfl,
        show totalLen (merge 0 [Interval.mk "chr1" 0 1]) = 1 from rfl]
      norm_num)⟩

end Grit
